import Mathlib

/-!
Verification of the streaming client core of the customer-churn wizard:
the SSE stream sessions (trainModelStream and predictStream in the api
module), the request executor (HttpClient.request in services/http.ts)
and the error normalizer (utils/errors.ts).

Strings from the source are embedded as lists of characters.  JSON values
produced by the platform parser are embedded by the inductive type Json;
the parser itself (the platform builtin JSON.parse) is a parameter of
every definition that uses it, modelled as a partial function in which the
value none stands for a thrown SyntaxError.
-/

namespace ChurnStream

/-- JSON values as produced by the platform parser.  Numbers are embedded
as integers; no claim computes with numeric payloads, only their presence
and type matter. -/
inductive Json where
  | null : Json
  | bool (b : Bool) : Json
  | num (n : Int) : Json
  | str (s : List Char) : Json
  | arr (xs : List Json) : Json
  | obj (fields : List (List Char × Json)) : Json

/-- Lookup of a field in the field list of a JSON object. -/
def lookupField : List (List Char × Json) → List Char → Option Json
  | [], _ => none
  | (k, v) :: rest, key => if k = key then some v else lookupField rest key

/-- Property access data.key of the JS value data: only objects have own
fields, every other value (including arrays, which only have index
properties here) yields undefined, embedded as none. -/
def getField : Json → List Char → Option Json
  | Json.obj fields, key => lookupField fields key
  | _, _ => none

/-- JS truthiness of a parsed JSON value: null, false, 0 and the empty
string are falsy, everything else is truthy. -/
def jsTruthy : Json → Bool
  | Json.null => false
  | Json.bool b => b
  | Json.num n => decide (n ≠ 0)
  | Json.str s => decide (s ≠ [])
  | Json.arr _ => true
  | Json.obj _ => true

/-- The test typeof data.key === "number" of the source: the field is
present and is a JSON number. -/
def isNumField (data : Json) (key : List Char) : Bool :=
  match getField data key with
  | some (Json.num _) => true
  | _ => false

/-- Numeric value of a field, defaulting to 0; only used under an
isNumField guard. -/
def numFieldVal (data : Json) (key : List Char) : Int :=
  match getField data key with
  | some (Json.num n) => n
  | _ => 0

mutual
/-- JS String(v) conversion as performed by the Error constructor on a
non-string message value. -/
def jsToString : Json → List Char
  | Json.null => "null".data
  | Json.bool true => "true".data
  | Json.bool false => "false".data
  | Json.num n => (toString n).data
  | Json.str s => s
  | Json.arr xs => List.intercalate [','] (jsArrElems xs)
  | Json.obj _ => "[object Object]".data

/-- Elements of an array as stringified by Array.prototype.toString:
null elements contribute the empty string. -/
def jsArrElems : List Json → List (List Char)
  | [] => []
  | Json.null :: xs => [] :: jsArrElems xs
  | x :: xs => jsToString x :: jsArrElems xs
end

/-- Whitespace recognised by String.prototype.trim (ASCII part; the SSE
wire format in this client is ASCII-framed). -/
def isWsChar (c : Char) : Bool :=
  c = ' ' || c = '\t' || c = '\n' || c = '\r' || c = '\x0b' || c = '\x0c'

/-- String.prototype.trim: drop whitespace from both ends. -/
def jsTrim (s : List Char) : List Char :=
  ((s.dropWhile isWsChar).reverse.dropWhile isWsChar).reverse

/-- String.prototype.startsWith on character lists. -/
def hasPrefixCh : List Char → List Char → Bool
  | [], _ => true
  | _ :: _, [] => false
  | p :: ps, c :: cs => p = c && hasPrefixCh ps cs

/-- The split raw.split(regex of carriage-return? newline) of the source:
a newline, optionally preceded by a carriage return, separates lines. -/
def splitLines : List Char → List (List Char)
  | [] => [[]]
  | '\r' :: '\n' :: rest => [] :: splitLines rest
  | '\n' :: rest => [] :: splitLines rest
  | c :: rest =>
    match splitLines rest with
    | [] => [[c]]
    | l :: ls => (c :: l) :: ls

/-- One step of the per-line loop of trainModelStream (lines 138-141):
a line starting with event: sets the event kind (trimmed), a line
starting with data: appends its trimmed tail to the data lines, any other
line is ignored. -/
def frameLineStep (acc : List Char × List (List Char)) (line : List Char) :
    List Char × List (List Char) :=
  if hasPrefixCh ("event:".data) line then (jsTrim (line.drop 6), acc.2)
  else if hasPrefixCh ("data:".data) line then (acc.1, acc.2 ++ [jsTrim (line.drop 5)])
  else acc

/-- Parsing the lines of one raw frame into the event kind (default
message) and the ordered list of data-line contributions. -/
def parseFrameLines (raw : List Char) : List Char × List (List Char) :=
  (splitLines raw).foldl frameLineStep ("message".data, [])

/-- The joined data text dataLines.join of a raw frame. -/
def dataStrOf (raw : List Char) : List Char :=
  List.intercalate ['\n'] (parseFrameLines raw).2

/-- Leftmost occurrence of the frame delimiter (two consecutive newline
characters), as found by buffer.indexOf: returns the text before the
delimiter and the text after it. -/
def findDelim : List Char → Option (List Char × List Char)
  | [] => none
  | c :: cs =>
    match cs with
    | [] => none
    | d :: rest =>
      if c = '\n' ∧ d = '\n' then some ([], rest)
      else
        match findDelim cs with
        | none => none
        | some (p, q) => some (c :: p, q)

theorem findDelim_cons (c d : Char) (rest : List Char) :
    findDelim (c :: d :: rest) =
      if c = '\n' ∧ d = '\n' then some ([], rest)
      else
        match findDelim (d :: rest) with
        | none => none
        | some (p, q) => some (c :: p, q) := rfl

theorem findDelim_parts : ∀ s p q, findDelim s = some (p, q) →
    s = p ++ '\n' :: '\n' :: q := by
  intro s
  induction s with
  | nil => intro p q h; simp [findDelim] at h
  | cons c cs ih =>
    intro p q h
    cases cs with
    | nil => simp [findDelim] at h
    | cons d rest =>
      rw [findDelim_cons] at h
      by_cases hnl : c = '\n' ∧ d = '\n'
      · rw [if_pos hnl] at h
        injection h with h2
        injection h2 with h3 h4
        subst h3; subst h4
        simp [hnl.1, hnl.2]
      · rw [if_neg hnl] at h
        cases hfd : findDelim (d :: rest) with
        | none => rw [hfd] at h; simp at h
        | some pq =>
          obtain ⟨p', q'⟩ := pq
          rw [hfd] at h
          simp at h
          obtain ⟨hp, hq⟩ := h
          subst hp; subst hq
          have := ih p' q' hfd
          rw [this]
          simp

theorem findDelim_length {s p q : List Char} (h : findDelim s = some (p, q)) :
    q.length < s.length := by
  have := findDelim_parts s p q h
  subst this
  simp
  omega

theorem findDelim_append_some {a : List Char} (b : List Char) {p q : List Char}
    (h : findDelim a = some (p, q)) :
    findDelim (a ++ b) = some (p, q ++ b) := by
  induction a generalizing p q with
  | nil => simp [findDelim] at h
  | cons c cs ih =>
    cases cs with
    | nil => simp [findDelim] at h
    | cons d rest =>
      rw [findDelim_cons] at h
      have hstep : (c :: d :: rest) ++ b = c :: d :: (rest ++ b) := rfl
      rw [hstep, findDelim_cons]
      by_cases hnl : c = '\n' ∧ d = '\n'
      · rw [if_pos hnl] at h
        injection h with h2
        injection h2 with h3 h4
        subst h3; subst h4
        rw [if_pos hnl]
      · rw [if_neg hnl] at h
        rw [if_neg hnl]
        cases hfd : findDelim (d :: rest) with
        | none => rw [hfd] at h; simp at h
        | some pq =>
          obtain ⟨p', q'⟩ := pq
          rw [hfd] at h
          simp at h
          obtain ⟨hp, hq⟩ := h
          subst hp; subst hq
          have hrec := ih hfd
          have hrec2 : findDelim (d :: (rest ++ b)) = some (p', q' ++ b) := by
            have : (d :: rest) ++ b = d :: (rest ++ b) := rfl
            rw [← this]
            exact hrec
          rw [hrec2]

/-- Fuelled form of the frame-extraction loop (the while loop of lines
128-161 viewed as pure extraction): repeatedly take the text before the
first delimiter as a raw frame, keep the remainder buffered. -/
def extractF : Nat → List Char → List (List Char) × List Char
  | 0, s => ([], s)
  | fuel + 1, s =>
    match findDelim s with
    | none => ([], s)
    | some (p, q) =>
      let r := extractF fuel q
      (p :: r.1, r.2)

theorem extractF_irrel : ∀ f1 f2 s, s.length ≤ f1 → s.length ≤ f2 →
    extractF f1 s = extractF f2 s := by
  intro f1
  induction f1 with
  | zero =>
    intro f2 s h1 _
    have : s = [] := by
      cases s with
      | nil => rfl
      | cons a as => simp at h1
    subst this
    cases f2 with
    | zero => rfl
    | succ f2 => simp [extractF, findDelim]
  | succ f1 ih =>
    intro f2 s h1 h2
    cases f2 with
    | zero =>
      have : s = [] := by
        cases s with
        | nil => rfl
        | cons a as => simp at h2
      subst this
      simp [extractF, findDelim]
    | succ f2 =>
      simp only [extractF]
      cases hfd : findDelim s with
      | none => rfl
      | some pq =>
        obtain ⟨p, q⟩ := pq
        have hlen := findDelim_length hfd
        have := ih f2 q (by omega) (by omega)
        simp [this]

/-- The frame decoder state transition on the full current buffer:
extracted raw frames in order, and the remaining (delimiter-free)
buffer. -/
def extract (s : List Char) : List (List Char) × List Char :=
  extractF s.length s

theorem extract_none {s : List Char} (h : findDelim s = none) :
    extract s = ([], s) := by
  unfold extract
  cases hl : s.length with
  | zero => simp [extractF]
  | succ n => simp [extractF, h]

theorem extract_cons {s p q : List Char} (h : findDelim s = some (p, q)) :
    extract s = (p :: (extract q).1, (extract q).2) := by
  unfold extract
  have hlen := findDelim_length h
  cases hl : s.length with
  | zero => omega
  | succ n =>
    simp only [extractF, h]
    have : extractF n q = extractF q.length q := by
      apply extractF_irrel
      · omega
      · omega
    rw [this]

theorem extract_append : ∀ (a b : List Char),
    extract (a ++ b) =
      ((extract a).1 ++ (extract ((extract a).2 ++ b)).1,
       (extract ((extract a).2 ++ b)).2) := by
  have main : ∀ (n : Nat) (a b : List Char), a.length ≤ n →
      extract (a ++ b) =
        ((extract a).1 ++ (extract ((extract a).2 ++ b)).1,
         (extract ((extract a).2 ++ b)).2) := by
    intro n
    induction n with
    | zero =>
      intro a b h
      have : a = [] := by
        cases a with
        | nil => rfl
        | cons x xs => simp at h
      subst this
      simp [extract_none (s := []) (by simp [findDelim])]
    | succ n ih =>
      intro a b h
      cases hfd : findDelim a with
      | none =>
        rw [extract_none hfd]
        simp
      | some pq =>
        obtain ⟨p, q⟩ := pq
        have hlen := findDelim_length hfd
        rw [extract_cons hfd]
        rw [extract_cons (findDelim_append_some b hfd)]
        have hq := ih q b (by omega)
        rw [hq]
        simp
  intro a b
  exact main a.length a b (Nat.le_refl _)

theorem extract_rest_no_delim : ∀ (a : List Char),
    findDelim (extract a).2 = none := by
  have main : ∀ (n : Nat) (a : List Char), a.length ≤ n →
      findDelim (extract a).2 = none := by
    intro n
    induction n with
    | zero =>
      intro a h
      have : a = [] := by
        cases a with
        | nil => rfl
        | cons x xs => simp at h
      subst this
      rw [extract_none (by simp [findDelim])]
      simp [findDelim]
    | succ n ih =>
      intro a h
      cases hfd : findDelim a with
      | none => rw [extract_none hfd]; exact hfd
      | some pq =>
        obtain ⟨p, q⟩ := pq
        have hlen := findDelim_length hfd
        rw [extract_cons hfd]
        exact ih q (by omega)
  intro a
  exact main a.length a (Nat.le_refl _)

/-- Why a stream session rejected.  Each constructor corresponds to one
reject site of the source: a thrown JSON.parse SyntaxError caught by the
catch handler (the offending text is recorded; the platform supplies the
message), an error frame (new Error of the message field or the default),
the done branch, and a rejected read. -/
inductive Reason where
  | parseError (text : List Char) : Reason
  | errorFrame (msg : List Char) : Reason
  | eof (msg : List Char) : Reason
  | readError (msg : List Char) : Reason

/-- Terminal outcome of the promise: resolve with the payload of a
complete frame, or reject with a Reason. -/
inductive SettleOutcome where
  | resolved (v : Json) : SettleOutcome
  | rejected (r : Reason) : SettleOutcome

/-- Observable state of one stream session: the progress-callback
invocations issued so far (pct together with the raw message field), the
settled guard of lines 103-115, and the settled outcome if any. -/
structure SessCore where
  progress : List (Int × Option Json)
  settled : Bool
  outcome : Option SettleOutcome

def initCore : SessCore := { progress := [], settled := false, outcome := none }

/-- The messages that differ between trainModelStream and
predictStream. -/
structure SessionCfg where
  eofMsg : List Char
  failMsg : List Char

def trainCfg : SessionCfg :=
  { eofMsg := "Training stream ended unexpectedly.".data,
    failMsg := "Training failed.".data }

def predictCfg : SessionCfg :=
  { eofMsg := "Prediction stream ended unexpectedly.".data,
    failMsg := "Prediction failed.".data }

/-- safeResolve of lines 105-109: resolve only when the settled guard is
still down, then raise it. -/
def safeResolve (core : SessCore) (v : Json) : SessCore :=
  if core.settled then core
  else { core with settled := true, outcome := some (SettleOutcome.resolved v) }

/-- safeReject of lines 111-115: reject only when the settled guard is
still down, then raise it. -/
def safeReject (core : SessCore) (r : Reason) : SessCore :=
  if core.settled then core
  else { core with settled := true, outcome := some (SettleOutcome.rejected r) }

/-- The message new Error(data.message or-else default) rejects with on an
error frame: the message field when truthy (stringified), else the
default. -/
def errorFrameMessage (data : Json) (dflt : List Char) : List Char :=
  match getField data ("message".data) with
  | some m => if jsTruthy m then jsToString m else dflt
  | none => dflt

/-- Event kind of a raw frame (default message, last event line wins). -/
def frameEvent (raw : List Char) : List Char := (parseFrameLines raw).1

/-- Dispatch of one non-empty raw frame (lines 134-157): parse the lines,
join the data lines, parse them as JSON when non-empty (null payload
otherwise, which makes every branch of the chain fail), then run the
event-kind chain.  A thrown JSON.parse error is the parseError rejection;
a progress frame with a numeric pct invokes the callback; a truthy
complete payload resolves; a truthy error payload rejects; everything
else leaves the session unchanged. -/
def dispatchFrame (parse : List Char → Option Json) (cfg : SessionCfg)
    (core : SessCore) (raw : List Char) : SessCore :=
  if dataStrOf raw = [] then core
  else
    match parse (dataStrOf raw) with
    | none => safeReject core (Reason.parseError (dataStrOf raw))
    | some data =>
      if frameEvent raw = "progress".data ∧ jsTruthy data ∧ isNumField data ("pct".data) then
        { core with progress :=
            core.progress ++ [(numFieldVal data ("pct".data), getField data ("message".data))] }
      else if frameEvent raw = "complete".data ∧ jsTruthy data then
        safeResolve core data
      else if frameEvent raw = "error".data ∧ jsTruthy data then
        safeReject core (Reason.errorFrame (errorFrameMessage data cfg.failMsg))
      else core

/-- Fuelled form of the while loop of lines 128-161 applied to the whole
current buffer: extract a frame, skip it when its trim is empty, dispatch
it otherwise, and stop (leaving the rest of the buffer untouched) as soon
as the session settles, as the return statements and the thrown parse
error do in the source. -/
def processBufferF (parse : List Char → Option Json) (cfg : SessionCfg) :
    Nat → SessCore → List Char → SessCore × List Char
  | 0, core, buf => (core, buf)
  | fuel + 1, core, buf =>
    match findDelim buf with
    | none => (core, buf)
    | some (pre, post) =>
      if jsTrim pre = [] then processBufferF parse cfg fuel core post
      else
        let c2 := dispatchFrame parse cfg core (jsTrim pre)
        if c2.settled then (c2, post)
        else processBufferF parse cfg fuel c2 post

/-- Processing of the whole current buffer. -/
def processBuffer (parse : List Char → Option Json) (cfg : SessionCfg)
    (core : SessCore) (buf : List Char) : SessCore × List Char :=
  processBufferF parse cfg buf.length core buf

theorem processBufferF_irrel (parse : List Char → Option Json) (cfg : SessionCfg) :
    ∀ f1 f2 core buf, buf.length ≤ f1 → buf.length ≤ f2 →
      processBufferF parse cfg f1 core buf = processBufferF parse cfg f2 core buf := by
  intro f1
  induction f1 with
  | zero =>
    intro f2 core buf h1 _
    have : buf = [] := by
      cases buf with
      | nil => rfl
      | cons a as => simp at h1
    subst this
    cases f2 with
    | zero => rfl
    | succ f2 => simp [processBufferF, findDelim]
  | succ f1 ih =>
    intro f2 core buf h1 h2
    cases f2 with
    | zero =>
      have : buf = [] := by
        cases buf with
        | nil => rfl
        | cons a as => simp at h2
      subst this
      simp [processBufferF, findDelim]
    | succ f2 =>
      simp only [processBufferF]
      cases hfd : findDelim buf with
      | none => rfl
      | some pq =>
        obtain ⟨pre, post⟩ := pq
        have hlen := findDelim_length hfd
        by_cases htr : jsTrim pre = []
        · simp only [htr, if_pos]
          exact ih f2 core post (by omega) (by omega)
        · simp only [htr, if_neg, ite_false]
          by_cases hset : (dispatchFrame parse cfg core (jsTrim pre)).settled
          · simp [hset]
          · simp only [hset, ite_false, Bool.false_eq_true]
            exact ih f2 _ post (by omega) (by omega)

theorem processBuffer_no_delim {parse : List Char → Option Json} {cfg : SessionCfg}
    {core : SessCore} {buf : List Char} (h : findDelim buf = none) :
    processBuffer parse cfg core buf = (core, buf) := by
  unfold processBuffer
  cases hl : buf.length with
  | zero => simp [processBufferF]
  | succ n => simp [processBufferF, h]

theorem processBuffer_delim {parse : List Char → Option Json} {cfg : SessionCfg}
    {core : SessCore} {buf pre post : List Char}
    (h : findDelim buf = some (pre, post)) :
    processBuffer parse cfg core buf =
      (if jsTrim pre = [] then processBuffer parse cfg core post
       else
         let c2 := dispatchFrame parse cfg core (jsTrim pre)
         if c2.settled then (c2, post)
         else processBuffer parse cfg c2 post) := by
  unfold processBuffer
  have hlen := findDelim_length h
  cases hl : buf.length with
  | zero => omega
  | succ n =>
    simp only [processBufferF, h]
    have hn : post.length ≤ n := by omega
    by_cases htr : jsTrim pre = []
    · simp only [htr, if_pos]
      exact processBufferF_irrel parse cfg n post.length core post hn (Nat.le_refl _)
    · simp only [htr, if_neg, ite_false]
      by_cases hset : (dispatchFrame parse cfg core (jsTrim pre)).settled
      · simp [hset]
      · simp only [hset, ite_false, Bool.false_eq_true]
        exact processBufferF_irrel parse cfg n post.length _ post hn (Nat.le_refl _)

/-- Appending further input to the buffer does not disturb the frames
already extracted: if the buffer settles the session, the appended text is
left after the settled frame unread; otherwise processing continues over
the leftover plus the appended text. -/
theorem processBuffer_append (parse : List Char → Option Json) (cfg : SessionCfg) :
    ∀ (a b : List Char) (core : SessCore), core.settled = false →
      ((processBuffer parse cfg core a).1.settled = true →
        processBuffer parse cfg core (a ++ b) =
          ((processBuffer parse cfg core a).1, (processBuffer parse cfg core a).2 ++ b)) ∧
      ((processBuffer parse cfg core a).1.settled = false →
        processBuffer parse cfg core (a ++ b) =
          processBuffer parse cfg (processBuffer parse cfg core a).1
            ((processBuffer parse cfg core a).2 ++ b)) := by
  have main : ∀ (n : Nat) (a b : List Char) (core : SessCore), a.length ≤ n →
      core.settled = false →
      ((processBuffer parse cfg core a).1.settled = true →
        processBuffer parse cfg core (a ++ b) =
          ((processBuffer parse cfg core a).1, (processBuffer parse cfg core a).2 ++ b)) ∧
      ((processBuffer parse cfg core a).1.settled = false →
        processBuffer parse cfg core (a ++ b) =
          processBuffer parse cfg (processBuffer parse cfg core a).1
            ((processBuffer parse cfg core a).2 ++ b)) := by
    intro n
    induction n with
    | zero =>
      intro a b core h hcore
      have : a = [] := by
        cases a with
        | nil => rfl
        | cons x xs => simp at h
      subst this
      rw [processBuffer_no_delim (by simp [findDelim])]
      constructor
      · intro hset
        rw [hcore] at hset
        simp at hset
      · intro _
        simp
    | succ n ih =>
      intro a b core h hcore
      cases hfd : findDelim a with
      | none =>
        rw [processBuffer_no_delim hfd]
        constructor
        · intro hset
          rw [hcore] at hset
          simp at hset
        · intro _
          simp
      | some pq =>
        obtain ⟨pre, post⟩ := pq
        have hlen := findDelim_length hfd
        have hfd2 := findDelim_append_some b hfd
        by_cases htr : jsTrim pre = []
        · rw [processBuffer_delim hfd, processBuffer_delim hfd2, if_pos htr, if_pos htr]
          exact ih post b core (by omega) hcore
        · by_cases hset : (dispatchFrame parse cfg core (jsTrim pre)).settled = true
          · constructor
            · intro _
              rw [processBuffer_delim hfd, processBuffer_delim hfd2, if_neg htr, if_neg htr]
              simp only [hset, if_true]
            · intro habs
              rw [processBuffer_delim hfd, if_neg htr] at habs
              simp only [hset, if_true] at habs
              exact absurd habs (by simp)
          · have hset' : (dispatchFrame parse cfg core (jsTrim pre)).settled = false := by
              simpa using hset
            have hrw : processBuffer parse cfg core a =
                processBuffer parse cfg (dispatchFrame parse cfg core (jsTrim pre)) post := by
              rw [processBuffer_delim hfd, if_neg htr]
              simp only [hset', Bool.false_eq_true, if_false]
            have hrw2 : processBuffer parse cfg core (a ++ b) =
                processBuffer parse cfg (dispatchFrame parse cfg core (jsTrim pre)) (post ++ b) := by
              rw [processBuffer_delim hfd2, if_neg htr]
              simp only [hset', Bool.false_eq_true, if_false]
            rw [hrw, hrw2]
            exact ih post b _ (by omega) hset'
  intro a b core hcore
  exact main a.length a b core (Nat.le_refl _) hcore

/-- The read loop over decoded text chunks: each read appends its text to
the buffer and pumps the extraction loop; once the session settles no
further chunk is read (the resolved or rejected pump stops recursing). -/
def runChunks (parse : List Char → Option Json) (cfg : SessionCfg)
    (core : SessCore) (buf : List Char) : List (List Char) → SessCore × List Char
  | [] => (core, buf)
  | c :: cs =>
    let r := processBuffer parse cfg core (buf ++ c)
    if r.1.settled then r
    else runChunks parse cfg r.1 r.2 cs

/-- A whole session over a finite chunk sequence followed by
end-of-stream: if the chunks did not settle the session, the done branch
(lines 120-124) rejects with the ended-unexpectedly message. -/
def runStream (parse : List Char → Option Json) (cfg : SessionCfg)
    (chunks : List (List Char)) : SessCore :=
  let r := runChunks parse cfg initCore [] chunks
  if r.1.settled then r.1
  else safeReject r.1 (Reason.eof cfg.eofMsg)

theorem processBuffer_rest_no_delim (parse : List Char → Option Json) (cfg : SessionCfg) :
    ∀ (a : List Char) (core : SessCore),
      (processBuffer parse cfg core a).1.settled = false →
      findDelim (processBuffer parse cfg core a).2 = none := by
  have main : ∀ (n : Nat) (a : List Char) (core : SessCore), a.length ≤ n →
      (processBuffer parse cfg core a).1.settled = false →
      findDelim (processBuffer parse cfg core a).2 = none := by
    intro n
    induction n with
    | zero =>
      intro a core h _
      have : a = [] := by
        cases a with
        | nil => rfl
        | cons x xs => simp at h
      subst this
      rw [processBuffer_no_delim (by simp [findDelim])]
      simp [findDelim]
    | succ n ih =>
      intro a core h hset
      cases hfd : findDelim a with
      | none =>
        rw [processBuffer_no_delim hfd]
        exact hfd
      | some pq =>
        obtain ⟨pre, post⟩ := pq
        have hlen := findDelim_length hfd
        rw [processBuffer_delim hfd] at hset ⊢
        by_cases htr : jsTrim pre = []
        · rw [if_pos htr] at hset ⊢
          exact ih post core (by omega) hset
        · rw [if_neg htr] at hset ⊢
          by_cases hs2 : (dispatchFrame parse cfg core (jsTrim pre)).settled = true
          · simp only [hs2, if_true] at hset
            exact absurd hset (by simp [hs2])
          · have hs2' : (dispatchFrame parse cfg core (jsTrim pre)).settled = false := by
              simpa using hs2
            simp only [hs2', Bool.false_eq_true, if_false] at hset ⊢
            exact ih post _ (by omega) hset
  intro a core
  exact main a.length a core (Nat.le_refl _)

/-- The chunked read loop computes the same session core as processing
the concatenated input in one piece. -/
theorem runChunks_join (parse : List Char → Option Json) (cfg : SessionCfg) :
    ∀ (chunks : List (List Char)) (core : SessCore) (buf : List Char),
      core.settled = false → findDelim buf = none →
      (runChunks parse cfg core buf chunks).1 =
        (processBuffer parse cfg core (buf ++ List.flatten chunks)).1 := by
  intro chunks
  induction chunks with
  | nil =>
    intro core buf hcore hbuf
    simp only [runChunks, List.flatten_nil, List.append_nil]
    rw [processBuffer_no_delim hbuf]
  | cons c cs ih =>
    intro core buf hcore hbuf
    simp only [runChunks, List.flatten_cons]
    have hassoc : buf ++ (c ++ List.flatten cs) = (buf ++ c) ++ List.flatten cs := by
      simp
    rw [hassoc]
    by_cases hset : (processBuffer parse cfg core (buf ++ c)).1.settled = true
    · simp only [hset, if_true]
      have := (processBuffer_append parse cfg (buf ++ c) (List.flatten cs) core hcore).1 hset
      rw [this]
    · have hset' : (processBuffer parse cfg core (buf ++ c)).1.settled = false := by
        simpa using hset
      simp only [hset', Bool.false_eq_true, if_false]
      have hrest := processBuffer_rest_no_delim parse cfg (buf ++ c) core hset'
      have hrec := ih (processBuffer parse cfg core (buf ++ c)).1
        (processBuffer parse cfg core (buf ++ c)).2 hset' hrest
      rw [hrec]
      have := (processBuffer_append parse cfg (buf ++ c) (List.flatten cs) core hcore).2 hset'
      rw [this]

/-- A session core is unresolved when its outcome is not a resolve. -/
def notResolved (core : SessCore) : Prop :=
  ∀ v, core.outcome ≠ some (SettleOutcome.resolved v)

theorem safeReject_notResolved {core : SessCore} (h : notResolved core) (r : Reason) :
    notResolved (safeReject core r) := by
  intro v
  unfold safeReject
  by_cases hs : core.settled
  · simp [hs]; exact fun habs => (h v) habs
  · simp [hs]

theorem dispatchFrame_notResolved (parse : List Char → Option Json) (cfg : SessionCfg)
    {core : SessCore} {raw : List Char}
    (hev : frameEvent raw ≠ "complete".data) (h : notResolved core) :
    notResolved (dispatchFrame parse cfg core raw) := by
  unfold dispatchFrame
  by_cases hds : dataStrOf raw = []
  · simpa [hds] using h
  · rw [if_neg hds]
    cases hp : parse (dataStrOf raw) with
    | none => exact safeReject_notResolved h _
    | some data =>
      dsimp only
      by_cases h1 : frameEvent raw = "progress".data ∧ jsTruthy data ∧
          isNumField data ("pct".data)
      · simpa [h1] using h
      · rw [if_neg h1]
        have h2 : ¬(frameEvent raw = "complete".data ∧ jsTruthy data) := by
          intro habs
          exact hev habs.1
        rw [if_neg h2]
        by_cases h3 : frameEvent raw = "error".data ∧ jsTruthy data
        · simp only [h3, if_true]
          exact safeReject_notResolved h _
        · simpa [h3] using h

/-- Without a complete frame among the extracted frames, the pump never
resolves the session. -/
theorem processBuffer_notResolved (parse : List Char → Option Json) (cfg : SessionCfg) :
    ∀ (a : List Char) (core : SessCore),
      (∀ seg ∈ (extract a).1, frameEvent (jsTrim seg) ≠ "complete".data) →
      notResolved core →
      notResolved (processBuffer parse cfg core a).1 := by
  have main : ∀ (n : Nat) (a : List Char) (core : SessCore), a.length ≤ n →
      (∀ seg ∈ (extract a).1, frameEvent (jsTrim seg) ≠ "complete".data) →
      notResolved core →
      notResolved (processBuffer parse cfg core a).1 := by
    intro n
    induction n with
    | zero =>
      intro a core h _ hcore
      have : a = [] := by
        cases a with
        | nil => rfl
        | cons x xs => simp at h
      subst this
      rw [processBuffer_no_delim (by simp [findDelim])]
      exact hcore
    | succ n ih =>
      intro a core h hframes hcore
      cases hfd : findDelim a with
      | none =>
        rw [processBuffer_no_delim hfd]
        exact hcore
      | some pq =>
        obtain ⟨pre, post⟩ := pq
        have hlen := findDelim_length hfd
        have hext := extract_cons hfd
        have hpre : frameEvent (jsTrim pre) ≠ "complete".data := by
          apply hframes
          rw [hext]
          simp
        have hpost : ∀ seg ∈ (extract post).1, frameEvent (jsTrim seg) ≠ "complete".data := by
          intro seg hseg
          apply hframes
          rw [hext]
          simp
          right
          exact hseg
        rw [processBuffer_delim hfd]
        by_cases htr : jsTrim pre = []
        · rw [if_pos htr]
          exact ih post core (by omega) hpost hcore
        · rw [if_neg htr]
          have hdisp := dispatchFrame_notResolved parse cfg hpre hcore
          by_cases hs2 : (dispatchFrame parse cfg core (jsTrim pre)).settled = true
          · simp only [hs2, if_true]
            exact hdisp
          · have hs2' : (dispatchFrame parse cfg core (jsTrim pre)).settled = false := by
              simpa using hs2
            simp only [hs2', Bool.false_eq_true, if_false]
            exact ih post _ (by omega) hpost hdisp
  intro a core
  exact main a.length a core (Nat.le_refl _)

/-- Continuation byte of a UTF-8 sequence. -/
def contB (b : Nat) : Bool := decide (128 ≤ b) && decide (b < 192)

def dec1 (b : Nat) : Char := Char.ofNat b

def dec2 (b b1 : Nat) : Char := Char.ofNat ((b - 192) * 64 + (b1 - 128))

def dec3 (b b1 b2 : Nat) : Char :=
  Char.ofNat ((b - 224) * 4096 + (b1 - 128) * 64 + (b2 - 128))

def dec4 (b b1 b2 b3 : Nat) : Char :=
  Char.ofNat ((b - 240) * 262144 + (b1 - 128) * 4096 + (b2 - 128) * 64 + (b3 - 128))

def consChar (c : Char) : Option (List Char × List Nat) → Option (List Char × List Nat)
  | none => none
  | some (cs, r) => some (c :: cs, r)

/-- Greedy streaming UTF-8 decode, modelling one call of
TextDecoder.decode with the stream option: decode complete sequences into
characters and hold an incomplete trailing sequence back as pending
bytes.  A byte pattern that can never become a valid sequence yields
none; valid streams, the scope of the chunking claim, never hit it.  The
model does not re-check overlong or surrogate encodings: on strictly
valid UTF-8 input, the scope of the claim, it agrees with the
platform decoder. -/
def decodeGreedy : List Nat → Option (List Char × List Nat)
  | [] => some ([], [])
  | b :: rest =>
    if b < 128 then consChar (dec1 b) (decodeGreedy rest)
    else if b < 192 then none
    else if b < 224 then
      match rest with
      | [] => some ([], [b])
      | b1 :: r => if contB b1 then consChar (dec2 b b1) (decodeGreedy r) else none
    else if b < 240 then
      match rest with
      | [] => some ([], [b])
      | b1 :: r1 =>
        match r1 with
        | [] => if contB b1 then some ([], [b, b1]) else none
        | b2 :: r =>
          if contB b1 && contB b2 then consChar (dec3 b b1 b2) (decodeGreedy r) else none
    else if b < 248 then
      match rest with
      | [] => some ([], [b])
      | b1 :: r1 =>
        match r1 with
        | [] => if contB b1 then some ([], [b, b1]) else none
        | b2 :: r2 =>
          match r2 with
          | [] => if contB b1 && contB b2 then some ([], [b, b1, b2]) else none
          | b3 :: r =>
            if contB b1 && contB b2 && contB b3 then consChar (dec4 b b1 b2 b3) (decodeGreedy r)
            else none
    else none

theorem consChar_some (c : Char) (cs : List Char) (r : List Nat) :
    consChar c (some (cs, r)) = some (c :: cs, r) := rfl

theorem consChar_eq_some {c : Char} {o : Option (List Char × List Nat)} {cs : List Char}
    {r : List Nat} (h : consChar c o = some (cs, r)) :
    ∃ cs', o = some (cs', r) ∧ cs = c :: cs' := by
  cases o with
  | none => simp [consChar] at h
  | some pr =>
    obtain ⟨cs', r'⟩ := pr
    have h2 : ((c :: cs' : List Char), r') = (cs, r) := by
      simpa [consChar] using h
    injection h2 with h3 h4
    exact ⟨cs', by rw [h4], h3.symm⟩

theorem dg_ascii {x : Nat} (t : List Nat) (h : x < 128) :
    decodeGreedy (x :: t) = consChar (dec1 x) (decodeGreedy t) := by
  rw [decodeGreedy.eq_def]
  dsimp only
  rw [if_pos h]

theorem dg_cont_none {x : Nat} (t : List Nat) (h1 : ¬x < 128) (h2 : x < 192) :
    decodeGreedy (x :: t) = none := by
  rw [decodeGreedy.eq_def]
  dsimp only
  rw [if_neg h1, if_pos h2]

theorem dg_hi_none {x : Nat} (t : List Nat) (h : ¬x < 248) :
    decodeGreedy (x :: t) = none := by
  rw [decodeGreedy.eq_def]
  dsimp only
  rw [if_neg (by omega : ¬x < 128), if_neg (by omega : ¬x < 192),
    if_neg (by omega : ¬x < 224), if_neg (by omega : ¬x < 240), if_neg h]

theorem dg_single {x : Nat} (h1 : ¬x < 128) (h2 : ¬x < 192) (h5 : x < 248) :
    decodeGreedy [x] = some ([], [x]) := by
  rw [decodeGreedy.eq_def]
  dsimp only
  rw [if_neg h1, if_neg h2]
  by_cases h3 : x < 224
  · rw [if_pos h3]
  · rw [if_neg h3]
    by_cases h4 : x < 240
    · rw [if_pos h4]
    · rw [if_neg h4, if_pos h5]

theorem dg_pair {x y : Nat} (h3 : ¬x < 224) (h5 : x < 248) (hy : contB y = true) :
    decodeGreedy [x, y] = some ([], [x, y]) := by
  rw [decodeGreedy.eq_def]
  dsimp only
  rw [if_neg (by omega : ¬x < 128), if_neg (by omega : ¬x < 192), if_neg h3]
  by_cases h4 : x < 240
  · rw [if_pos h4]
    simp [hy]
  · rw [if_neg h4, if_pos h5]
    simp [hy]

theorem dg_triple {x y z : Nat} (h4 : ¬x < 240) (h5 : x < 248)
    (hy : contB y = true) (hz : contB z = true) :
    decodeGreedy [x, y, z] = some ([], [x, y, z]) := by
  rw [decodeGreedy.eq_def]
  dsimp only
  rw [if_neg (by omega : ¬x < 128), if_neg (by omega : ¬x < 192),
    if_neg (by omega : ¬x < 224), if_neg h4, if_pos h5]
  simp [hy, hz]

theorem dg2_step {x y : Nat} (t : List Nat) (h2 : ¬x < 192) (h3 : x < 224)
    (hy : contB y = true) :
    decodeGreedy (x :: y :: t) = consChar (dec2 x y) (decodeGreedy t) := by
  rw [decodeGreedy.eq_def]
  dsimp only
  rw [if_neg (by omega : ¬x < 128), if_neg h2, if_pos h3]
  simp [hy]

theorem dg2_stop {x y : Nat} (t : List Nat) (h2 : ¬x < 192) (h3 : x < 224)
    (hy : ¬contB y = true) :
    decodeGreedy (x :: y :: t) = none := by
  rw [decodeGreedy.eq_def]
  dsimp only
  rw [if_neg (by omega : ¬x < 128), if_neg h2, if_pos h3]
  simp [hy]

theorem dg3_step {x y z : Nat} (t : List Nat) (h3 : ¬x < 224) (h4 : x < 240)
    (hy : contB y = true) (hz : contB z = true) :
    decodeGreedy (x :: y :: z :: t) = consChar (dec3 x y z) (decodeGreedy t) := by
  rw [decodeGreedy.eq_def]
  dsimp only
  rw [if_neg (by omega : ¬x < 128), if_neg (by omega : ¬x < 192), if_neg h3, if_pos h4]
  simp [hy, hz]

theorem dg3_stop {x y z : Nat} (t : List Nat) (h3 : ¬x < 224) (h4 : x < 240)
    (hyz : ¬(contB y && contB z) = true) :
    decodeGreedy (x :: y :: z :: t) = none := by
  rw [decodeGreedy.eq_def]
  dsimp only
  rw [if_neg (by omega : ¬x < 128), if_neg (by omega : ¬x < 192), if_neg h3, if_pos h4]
  simp [hyz]

theorem dg4_step {x y z w : Nat} (t : List Nat) (h4 : ¬x < 240) (h5 : x < 248)
    (hy : contB y = true) (hz : contB z = true) (hw : contB w = true) :
    decodeGreedy (x :: y :: z :: w :: t) = consChar (dec4 x y z w) (decodeGreedy t) := by
  rw [decodeGreedy.eq_def]
  dsimp only
  rw [if_neg (by omega : ¬x < 128), if_neg (by omega : ¬x < 192),
    if_neg (by omega : ¬x < 224), if_neg h4, if_pos h5]
  simp [hy, hz, hw]

theorem dg4_stop {x y z w : Nat} (t : List Nat) (h4 : ¬x < 240) (h5 : x < 248)
    (hyzw : ¬(contB y && contB z && contB w) = true) :
    decodeGreedy (x :: y :: z :: w :: t) = none := by
  rw [decodeGreedy.eq_def]
  dsimp only
  rw [if_neg (by omega : ¬x < 128), if_neg (by omega : ¬x < 192),
    if_neg (by omega : ¬x < 224), if_neg h4, if_pos h5]
  simp [hyzw]

theorem dg_pair_stop {x y : Nat} (h3 : ¬x < 224) (h5 : x < 248) (hy : ¬contB y = true) :
    decodeGreedy [x, y] = none := by
  rw [decodeGreedy.eq_def]
  dsimp only
  rw [if_neg (by omega : ¬x < 128), if_neg (by omega : ¬x < 192), if_neg h3]
  by_cases h4 : x < 240
  · rw [if_pos h4]
    simp [hy]
  · rw [if_neg h4, if_pos h5]
    simp [hy]

theorem dg_triple_stop {x y z : Nat} (h4 : ¬x < 240) (h5 : x < 248)
    (hyz : ¬(contB y && contB z) = true) :
    decodeGreedy [x, y, z] = none := by
  rw [decodeGreedy.eq_def]
  dsimp only
  rw [if_neg (by omega : ¬x < 128), if_neg (by omega : ¬x < 192),
    if_neg (by omega : ¬x < 224), if_neg h4, if_pos h5]
  simp [hyz]

/-- The pending bytes held back by a greedy decode are an incomplete
sequence: decoding them again consumes nothing and keeps them pending. -/
theorem decode_pending : ∀ (s : List Nat) (cs : List Char) (r : List Nat),
    decodeGreedy s = some (cs, r) → decodeGreedy r = some ([], r) := by
  have main : ∀ (n : Nat) (s : List Nat) (cs : List Char) (r : List Nat), s.length ≤ n →
      decodeGreedy s = some (cs, r) → decodeGreedy r = some ([], r) := by
    intro n
    induction n with
    | zero =>
      intro s cs r hl h
      have : s = [] := by
        cases s with
        | nil => rfl
        | cons x xs => simp at hl
      subst this
      have h2 : (([] : List Char), ([] : List Nat)) = (cs, r) := by
        simpa [decodeGreedy] using h
      injection h2 with h3 h4
      subst h4
      rfl
    | succ n ih =>
      intro s cs r hl h
      cases s with
      | nil =>
        have h2 : (([] : List Char), ([] : List Nat)) = (cs, r) := by
          simpa [decodeGreedy] using h
        injection h2 with h3 h4
        subst h4
        rfl
      | cons x t =>
        have hlt : t.length ≤ n := by
          simp at hl
          omega
        by_cases hx1 : x < 128
        · rw [dg_ascii _ hx1] at h
          obtain ⟨cs', hrec, hcs⟩ := consChar_eq_some h
          exact ih t cs' r hlt hrec
        · by_cases hx2 : x < 192
          · rw [dg_cont_none _ hx1 hx2] at h
            exact Option.noConfusion h
          · by_cases hx3 : x < 224
            · cases t with
              | nil =>
                have h2 : (([] : List Char), [x]) = (cs, r) := by
                  simpa [dg_single hx1 hx2 (by omega : x < 248)] using h
                injection h2 with h3 h4
                subst h4
                exact dg_single hx1 hx2 (by omega)
              | cons y t2 =>
                by_cases hy : contB y = true
                · rw [dg2_step _ hx2 hx3 hy] at h
                  obtain ⟨cs', hrec, hcs⟩ := consChar_eq_some h
                  exact ih t2 cs' r (by simp at hl; omega) hrec
                · rw [dg2_stop _ hx2 hx3 hy] at h
                  exact Option.noConfusion h
            · by_cases hx4 : x < 240
              · cases t with
                | nil =>
                  have h2 : (([] : List Char), [x]) = (cs, r) := by
                    simpa [dg_single hx1 hx2 (by omega : x < 248)] using h
                  injection h2 with h3 h4
                  subst h4
                  exact dg_single hx1 hx2 (by omega)
                | cons y t2 =>
                  cases t2 with
                  | nil =>
                    by_cases hy : contB y = true
                    · have h2 : (([] : List Char), [x, y]) = (cs, r) := by
                        simpa [dg_pair hx3 (by omega : x < 248) hy] using h
                      injection h2 with h3 h4
                      subst h4
                      exact dg_pair hx3 (by omega) hy
                    · rw [dg_pair_stop hx3 (by omega) hy] at h
                      exact Option.noConfusion h
                  | cons z t3 =>
                    by_cases hyz : (contB y && contB z) = true
                    · have hy : contB y = true := by
                        rw [Bool.and_eq_true] at hyz
                        exact hyz.1
                      have hz : contB z = true := by
                        rw [Bool.and_eq_true] at hyz
                        exact hyz.2
                      rw [dg3_step _ hx3 hx4 hy hz] at h
                      obtain ⟨cs', hrec, hcs⟩ := consChar_eq_some h
                      exact ih t3 cs' r (by simp at hl; omega) hrec
                    · rw [dg3_stop _ hx3 hx4 hyz] at h
                      exact Option.noConfusion h
              · by_cases hx5 : x < 248
                · cases t with
                  | nil =>
                    have h2 : (([] : List Char), [x]) = (cs, r) := by
                      simpa [dg_single hx1 hx2 hx5] using h
                    injection h2 with h3 h4
                    subst h4
                    exact dg_single hx1 hx2 hx5
                  | cons y t2 =>
                    cases t2 with
                    | nil =>
                      by_cases hy : contB y = true
                      · have h2 : (([] : List Char), [x, y]) = (cs, r) := by
                          simpa [dg_pair hx3 hx5 hy] using h
                        injection h2 with h3 h4
                        subst h4
                        exact dg_pair hx3 hx5 hy
                      · rw [dg_pair_stop hx3 hx5 hy] at h
                        exact Option.noConfusion h
                    | cons z t3 =>
                      cases t3 with
                      | nil =>
                        by_cases hyz : (contB y && contB z) = true
                        · have hy : contB y = true := by
                            rw [Bool.and_eq_true] at hyz
                            exact hyz.1
                          have hz : contB z = true := by
                            rw [Bool.and_eq_true] at hyz
                            exact hyz.2
                          have h2 : (([] : List Char), [x, y, z]) = (cs, r) := by
                            simpa [dg_triple hx4 hx5 hy hz] using h
                          injection h2 with h3 h4
                          subst h4
                          exact dg_triple hx4 hx5 hy hz
                        · rw [dg_triple_stop hx4 hx5 hyz] at h
                          exact Option.noConfusion h
                      | cons w t4 =>
                        by_cases hyzw : (contB y && contB z && contB w) = true
                        · have hy : contB y = true := by
                            rw [Bool.and_eq_true, Bool.and_eq_true] at hyzw
                            exact hyzw.1.1
                          have hz : contB z = true := by
                            rw [Bool.and_eq_true, Bool.and_eq_true] at hyzw
                            exact hyzw.1.2
                          have hw : contB w = true := by
                            rw [Bool.and_eq_true] at hyzw
                            exact hyzw.2
                          rw [dg4_step _ hx4 hx5 hy hz hw] at h
                          obtain ⟨cs', hrec, hcs⟩ := consChar_eq_some h
                          exact ih t4 cs' r (by simp at hl; omega) hrec
                        · rw [dg4_stop _ hx4 hx5 hyzw] at h
                          exact Option.noConfusion h
                · rw [dg_hi_none _ hx5] at h
                  exact Option.noConfusion h
  intro s cs r h
  exact main s.length s cs r (Nat.le_refl _) h

/-- Splitting a byte stream anywhere: a successful greedy decode of the
concatenation factors through the greedy decode of the first part, its
pending bytes prepended to the second part. -/
theorem decode_split : ∀ (a b : List Nat) (cs : List Char) (r : List Nat),
    decodeGreedy (a ++ b) = some (cs, r) →
    ∃ cs1 p cs2, decodeGreedy a = some (cs1, p) ∧
      decodeGreedy (p ++ b) = some (cs2, r) ∧ cs = cs1 ++ cs2 := by
  have main : ∀ (n : Nat) (a b : List Nat) (cs : List Char) (r : List Nat), a.length ≤ n →
      decodeGreedy (a ++ b) = some (cs, r) →
      ∃ cs1 p cs2, decodeGreedy a = some (cs1, p) ∧
        decodeGreedy (p ++ b) = some (cs2, r) ∧ cs = cs1 ++ cs2 := by
    intro n
    induction n with
    | zero =>
      intro a b cs r hl h
      have : a = [] := by
        cases a with
        | nil => rfl
        | cons x xs => simp at hl
      subst this
      exact ⟨[], [], cs, rfl, by simpa using h, rfl⟩
    | succ n ih =>
      intro a b cs r hl h
      cases a with
      | nil => exact ⟨[], [], cs, rfl, by simpa using h, rfl⟩
      | cons x a1 =>
        simp only [List.cons_append] at h
        have hl1 : a1.length ≤ n := by
          simp at hl
          omega
        by_cases hx1 : x < 128
        · rw [dg_ascii _ hx1] at h
          obtain ⟨cs', hrec, hcs⟩ := consChar_eq_some h
          obtain ⟨cs1, p, cs2, h1, h2, h3⟩ := ih a1 b cs' r hl1 hrec
          refine ⟨dec1 x :: cs1, p, cs2, ?_, h2, ?_⟩
          · rw [dg_ascii _ hx1, h1, consChar_some]
          · rw [hcs, h3]
            rfl
        · by_cases hx2 : x < 192
          · rw [dg_cont_none _ hx1 hx2] at h
            exact Option.noConfusion h
          · by_cases hx3 : x < 224
            · cases a1 with
              | nil =>
                refine ⟨[], [x], cs, dg_single hx1 hx2 (by omega), ?_, rfl⟩
                simpa using h
              | cons y a2 =>
                simp only [List.cons_append] at h
                by_cases hy : contB y = true
                · rw [dg2_step _ hx2 hx3 hy] at h
                  obtain ⟨cs', hrec, hcs⟩ := consChar_eq_some h
                  obtain ⟨cs1, p, cs2, h1, h2, h3⟩ :=
                    ih a2 b cs' r (by simp at hl; omega) hrec
                  refine ⟨dec2 x y :: cs1, p, cs2, ?_, h2, ?_⟩
                  · rw [dg2_step _ hx2 hx3 hy, h1, consChar_some]
                  · rw [hcs, h3]
                    rfl
                · rw [dg2_stop _ hx2 hx3 hy] at h
                  exact Option.noConfusion h
            · by_cases hx4 : x < 240
              · cases a1 with
                | nil =>
                  refine ⟨[], [x], cs, dg_single hx1 hx2 (by omega), ?_, rfl⟩
                  simpa using h
                | cons y a2 =>
                  simp only [List.cons_append] at h
                  cases a2 with
                  | nil =>
                    simp only [List.nil_append] at h
                    cases b with
                    | nil =>
                      by_cases hy : contB y = true
                      · have h2 : (([] : List Char), [x, y]) = (cs, r) := by
                          simpa [dg_pair hx3 (by omega : x < 248) hy] using h
                        injection h2 with h3 h4
                        subst h3; subst h4
                        exact ⟨[], [x, y], [], dg_pair hx3 (by omega) hy,
                          by simpa using dg_pair hx3 (by omega : x < 248) hy, rfl⟩
                      · have := dg_pair_stop hx3 (by omega : x < 248) hy
                        rw [this] at h
                        exact Option.noConfusion h
                    | cons z b2 =>
                      by_cases hyz : (contB y && contB z) = true
                      · have hy : contB y = true := by
                          rw [Bool.and_eq_true] at hyz
                          exact hyz.1
                        refine ⟨[], [x, y], cs, dg_pair hx3 (by omega) hy, ?_, rfl⟩
                        simpa using h
                      · rw [dg3_stop _ hx3 hx4 hyz] at h
                        exact Option.noConfusion h
                  | cons z a3 =>
                    simp only [List.cons_append] at h
                    by_cases hyz : (contB y && contB z) = true
                    · have hy : contB y = true := by
                        rw [Bool.and_eq_true] at hyz
                        exact hyz.1
                      have hz : contB z = true := by
                        rw [Bool.and_eq_true] at hyz
                        exact hyz.2
                      rw [dg3_step _ hx3 hx4 hy hz] at h
                      obtain ⟨cs', hrec, hcs⟩ := consChar_eq_some h
                      obtain ⟨cs1, p, cs2, h1, h2, h3⟩ :=
                        ih a3 b cs' r (by simp at hl; omega) hrec
                      refine ⟨dec3 x y z :: cs1, p, cs2, ?_, h2, ?_⟩
                      · rw [dg3_step _ hx3 hx4 hy hz, h1, consChar_some]
                      · rw [hcs, h3]
                        rfl
                    · rw [dg3_stop _ hx3 hx4 hyz] at h
                      exact Option.noConfusion h
              · by_cases hx5 : x < 248
                · cases a1 with
                  | nil =>
                    refine ⟨[], [x], cs, dg_single hx1 hx2 hx5, ?_, rfl⟩
                    simpa using h
                  | cons y a2 =>
                    simp only [List.cons_append] at h
                    cases a2 with
                    | nil =>
                      simp only [List.nil_append] at h
                      cases b with
                      | nil =>
                        by_cases hy : contB y = true
                        · have h2 : (([] : List Char), [x, y]) = (cs, r) := by
                            simpa [dg_pair hx3 hx5 hy] using h
                          injection h2 with h3 h4
                          subst h3; subst h4
                          exact ⟨[], [x, y], [], dg_pair hx3 hx5 hy,
                            by simpa using dg_pair hx3 hx5 hy, rfl⟩
                        · rw [dg_pair_stop hx3 hx5 hy] at h
                          exact Option.noConfusion h
                      | cons z b2 =>
                        cases b2 with
                        | nil =>
                          by_cases hyz : (contB y && contB z) = true
                          · have hy : contB y = true := by
                              rw [Bool.and_eq_true] at hyz
                              exact hyz.1
                            refine ⟨[], [x, y], cs, dg_pair hx3 hx5 hy, ?_, rfl⟩
                            simpa using h
                          · rw [dg_triple_stop hx4 hx5 hyz] at h
                            exact Option.noConfusion h
                        | cons w b3 =>
                          by_cases hyzw : (contB y && contB z && contB w) = true
                          · have hy : contB y = true := by
                              rw [Bool.and_eq_true, Bool.and_eq_true] at hyzw
                              exact hyzw.1.1
                            refine ⟨[], [x, y], cs, dg_pair hx3 hx5 hy, ?_, rfl⟩
                            simpa using h
                          · rw [dg4_stop _ hx4 hx5 hyzw] at h
                            exact Option.noConfusion h
                    | cons z a3 =>
                      simp only [List.cons_append] at h
                      cases a3 with
                      | nil =>
                        simp only [List.nil_append] at h
                        cases b with
                        | nil =>
                          by_cases hyz : (contB y && contB z) = true
                          · have hy : contB y = true := by
                              rw [Bool.and_eq_true] at hyz
                              exact hyz.1
                            have hz : contB z = true := by
                              rw [Bool.and_eq_true] at hyz
                              exact hyz.2
                            have h2 : (([] : List Char), [x, y, z]) = (cs, r) := by
                              simpa [dg_triple hx4 hx5 hy hz] using h
                            injection h2 with h3 h4
                            subst h3; subst h4
                            exact ⟨[], [x, y, z], [], dg_triple hx4 hx5 hy hz,
                              by simpa using dg_triple hx4 hx5 hy hz, rfl⟩
                          · rw [dg_triple_stop hx4 hx5 hyz] at h
                            exact Option.noConfusion h
                        | cons w b2 =>
                          by_cases hyzw : (contB y && contB z && contB w) = true
                          · have hy : contB y = true := by
                              rw [Bool.and_eq_true, Bool.and_eq_true] at hyzw
                              exact hyzw.1.1
                            have hz : contB z = true := by
                              rw [Bool.and_eq_true, Bool.and_eq_true] at hyzw
                              exact hyzw.1.2
                            refine ⟨[], [x, y, z], cs, dg_triple hx4 hx5 hy hz, ?_, rfl⟩
                            simpa using h
                          · rw [dg4_stop _ hx4 hx5 hyzw] at h
                            exact Option.noConfusion h
                      | cons w a4 =>
                        simp only [List.cons_append] at h
                        by_cases hyzw : (contB y && contB z && contB w) = true
                        · have hy : contB y = true := by
                            rw [Bool.and_eq_true, Bool.and_eq_true] at hyzw
                            exact hyzw.1.1
                          have hz : contB z = true := by
                            rw [Bool.and_eq_true, Bool.and_eq_true] at hyzw
                            exact hyzw.1.2
                          have hw : contB w = true := by
                            rw [Bool.and_eq_true] at hyzw
                            exact hyzw.2
                          rw [dg4_step _ hx4 hx5 hy hz hw] at h
                          obtain ⟨cs', hrec, hcs⟩ := consChar_eq_some h
                          obtain ⟨cs1, p, cs2, h1, h2, h3⟩ :=
                            ih a4 b cs' r (by simp at hl; omega) hrec
                          refine ⟨dec4 x y z w :: cs1, p, cs2, ?_, h2, ?_⟩
                          · rw [dg4_step _ hx4 hx5 hy hz hw, h1, consChar_some]
                          · rw [hcs, h3]
                            rfl
                        · rw [dg4_stop _ hx4 hx5 hyzw] at h
                          exact Option.noConfusion h
                · rw [dg_hi_none _ hx5] at h
                  exact Option.noConfusion h
  intro a b cs r h
  exact main a.length a b cs r (Nat.le_refl _) h

/-- The frame decoder fed with raw byte chunks: each chunk is decoded
with the streaming text decoder (pending bytes prepended), the decoded
text is appended to the buffer and all complete frames are extracted.
Returns the extracted raw frames in order, the final buffer and the
final pending bytes. -/
def feedBytes (pending : List Nat) (buf : List Char) :
    List (List Nat) → Option (List (List Char) × List Char × List Nat)
  | [] => some ([], buf, pending)
  | c :: cs =>
    match decodeGreedy (pending ++ c) with
    | none => none
    | some pr =>
      match feedBytes pr.2 (extract (buf ++ pr.1)).2 cs with
      | none => none
      | some z => some ((extract (buf ++ pr.1)).1 ++ z.1, z.2.1, z.2.2)

/-- The stream session read loop at the byte level (lines 117-168): each
read decodes the chunk with the streaming text decoder, appends to the
buffer and pumps the extraction loop; reads stop once the session
settles. -/
def runBytes (parse : List Char → Option Json) (cfg : SessionCfg)
    (core : SessCore) (pending : List Nat) (buf : List Char) :
    List (List Nat) → Option (SessCore × List Char × List Nat)
  | [] => some (core, buf, pending)
  | c :: cs =>
    match decodeGreedy (pending ++ c) with
    | none => none
    | some pr =>
      let r := processBuffer parse cfg core (buf ++ pr.1)
      if r.1.settled then some (r.1, r.2, pr.2)
      else runBytes parse cfg r.1 pr.2 r.2 cs

/-- A whole byte-level session: run the reads, then the done branch. -/
def runStreamBytes (parse : List Char → Option Json) (cfg : SessionCfg)
    (chunks : List (List Nat)) : Option SessCore :=
  match runBytes parse cfg initCore [] [] chunks with
  | none => none
  | some r => some (if r.1.settled then r.1 else safeReject r.1 (Reason.eof cfg.eofMsg))

/-- Chunked byte feed of the frame decoder computed in closed form: under
the streaming-decoder invariants, the extracted frames are exactly those
of the concatenated decoded text. -/
theorem feedBytes_spec : ∀ (chunks : List (List Nat)) (p : List Nat) (buf : List Char)
    (txt : List Char) (r : List Nat),
    decodeGreedy p = some ([], p) → findDelim buf = none →
    decodeGreedy (p ++ List.flatten chunks) = some (txt, r) →
    feedBytes p buf chunks =
      some ((extract (buf ++ txt)).1, (extract (buf ++ txt)).2, r) := by
  intro chunks
  induction chunks with
  | nil =>
    intro p buf txt r hp hbuf hdec
    rw [List.flatten_nil, List.append_nil] at hdec
    rw [hp] at hdec
    have h2 : (([] : List Char), p) = (txt, r) := by simpa using hdec
    injection h2 with h3 h4
    subst h3; subst h4
    simp only [feedBytes]
    rw [List.append_nil, extract_none hbuf]
  | cons c cs ih =>
    intro p buf txt r hp hbuf hdec
    rw [List.flatten_cons] at hdec
    have hassoc : p ++ (c ++ List.flatten cs) = (p ++ c) ++ List.flatten cs := by simp
    rw [hassoc] at hdec
    obtain ⟨cs1, p', cs2, h1, h2, h3⟩ := decode_split (p ++ c) (List.flatten cs) txt r hdec
    have hp' : decodeGreedy p' = some ([], p') := decode_pending (p ++ c) cs1 p' h1
    have hbuf' : findDelim (extract (buf ++ cs1)).2 = none := extract_rest_no_delim _
    have hrec := ih p' (extract (buf ++ cs1)).2 cs2 r hp' hbuf' h2
    simp only [feedBytes]
    rw [h1]
    simp only [hrec]
    subst h3
    have hext := extract_append (buf ++ cs1) cs2
    have hassoc2 : buf ++ (cs1 ++ cs2) = (buf ++ cs1) ++ cs2 := by simp
    rw [hassoc2, hext]

/-- Chunked byte feed of the whole session: the resulting session core is
the one obtained by pumping the concatenated decoded text through the
buffer in one piece. -/
theorem runBytes_spec (parse : List Char → Option Json) (cfg : SessionCfg) :
    ∀ (chunks : List (List Nat)) (p : List Nat) (buf : List Char) (core : SessCore)
      (txt : List Char) (r : List Nat),
      decodeGreedy p = some ([], p) → findDelim buf = none → core.settled = false →
      decodeGreedy (p ++ List.flatten chunks) = some (txt, r) →
      ∃ b2 p2, runBytes parse cfg core p buf chunks =
        some ((processBuffer parse cfg core (buf ++ txt)).1, b2, p2) := by
  intro chunks
  induction chunks with
  | nil =>
    intro p buf core txt r hp hbuf hcore hdec
    rw [List.flatten_nil, List.append_nil] at hdec
    rw [hp] at hdec
    have h2 : (([] : List Char), p) = (txt, r) := by simpa using hdec
    injection h2 with h3 h4
    subst h3; subst h4
    refine ⟨buf, p, ?_⟩
    simp only [runBytes]
    rw [List.append_nil, processBuffer_no_delim hbuf]
  | cons c cs ih =>
    intro p buf core txt r hp hbuf hcore hdec
    rw [List.flatten_cons] at hdec
    have hassoc : p ++ (c ++ List.flatten cs) = (p ++ c) ++ List.flatten cs := by simp
    rw [hassoc] at hdec
    obtain ⟨cs1, p', cs2, h1, h2, h3⟩ := decode_split (p ++ c) (List.flatten cs) txt r hdec
    have hp' : decodeGreedy p' = some ([], p') := decode_pending (p ++ c) cs1 p' h1
    subst h3
    have hassoc2 : buf ++ (cs1 ++ cs2) = (buf ++ cs1) ++ cs2 := by simp
    rw [hassoc2]
    simp only [runBytes]
    rw [h1]
    by_cases hset : (processBuffer parse cfg core (buf ++ cs1)).1.settled = true
    · refine ⟨(processBuffer parse cfg core (buf ++ cs1)).2, p', ?_⟩
      simp only [hset, if_true]
      have := (processBuffer_append parse cfg (buf ++ cs1) cs2 core hcore).1 hset
      rw [this]
    · have hset' : (processBuffer parse cfg core (buf ++ cs1)).1.settled = false := by
        simpa using hset
      have hbuf' : findDelim (processBuffer parse cfg core (buf ++ cs1)).2 = none :=
        processBuffer_rest_no_delim parse cfg _ core hset'
      obtain ⟨b2, p2, hrec⟩ := ih p' (processBuffer parse cfg core (buf ++ cs1)).2
        (processBuffer parse cfg core (buf ++ cs1)).1 cs2 r hp' hbuf' hset' h2
      refine ⟨b2, p2, ?_⟩
      simp only [hset', Bool.false_eq_true, if_false]
      rw [hrec]
      have := (processBuffer_append parse cfg (buf ++ cs1) cs2 core hcore).2 hset'
      rw [this]

/-- The structured error shape of utils/errors.ts. -/
structure ApiErrorShape where
  message : List Char
  code : List Char
  trace_id : List Char
  details : Option Json

/-- The JS typeof test for object: objects, arrays and null all have
typeof object. -/
def isObjectLike : Json → Bool
  | Json.obj _ => true
  | Json.arr _ => true
  | Json.null => true
  | _ => false

/-- tryParseApiError of utils/errors.ts lines 8-26: reject falsy or
non-object payloads, then require string message, code and trace_id
fields.  The argument none embeds a null payload. -/
def tryParseApiError : Option Json → Option ApiErrorShape
  | none => none
  | some payload =>
    if !jsTruthy payload || !isObjectLike payload then none
    else
      match getField payload ("message".data), getField payload ("code".data),
        getField payload ("trace_id".data) with
      | some (Json.str m), some (Json.str c), some (Json.str t) =>
        some { message := m, code := c, trace_id := t,
               details := getField payload ("details".data) }
      | _, _, _ => none

/-- The status-keyed fallback block of toUserErrorMessage (lines 34-41);
the server-error arm tests status truthiness and the 500 bound, as
status and status greater-or-equal 500 does. -/
def statusFallback (status : Option Nat) : List Char :=
  match status with
  | some s =>
    if s = 404 then "Not found.".data
    else if s = 408 then "Request timed out. Please try again.".data
    else if s = 413 then "File is too large. Please upload a smaller file.".data
    else if s = 422 then "Invalid input. Please check the form and try again.".data
    else if s ≠ 0 ∧ 500 ≤ s then "Server error. Please try again later.".data
    else "Something went wrong. Please try again.".data
  | none => "Something went wrong. Please try again.".data

/-- toUserErrorMessage of utils/errors.ts lines 28-42: a truthy
(non-empty) structured message wins, otherwise the status table. -/
def toUserErrorMessage (apiErr : Option ApiErrorShape) (status : Option Nat) : List Char :=
  match apiErr with
  | some e => if e.message ≠ [] then e.message else statusFallback status
  | none => statusFallback status

/-- The non-ok branch of HttpClient.request (http.ts lines 81-95): parse
the body as JSON when the content type says JSON (a thrown parse error
leaves a null payload), keep the raw text otherwise, then normalize.  The
error thrown to the caller carries this message. -/
def requestErrorMessage (parse : List Char → Option Json) (isJson : Bool)
    (bodyText : List Char) (status : Nat) : List Char :=
  let payload : Option Json :=
    if isJson then
      match parse bodyText with
      | none => none
      | some j => some j
    else some (Json.str bodyText)
  toUserErrorMessage (tryParseApiError payload) (some status)

/-- The init-failure throw of trainModelStream (lines 92-96): the raw
response text when non-empty, else the fixed message.  A failed body read
leaves empty text. -/
def trainStreamInitMessage (bodyText : List Char) : List Char :=
  if bodyText ≠ [] then bodyText else "Failed to start training stream.".data

/-- The init-failure throw of predictStream (lines 238-242). -/
def predictStreamInitMessage (bodyText : List Char) : List Char :=
  if bodyText ≠ [] then bodyText else "Failed to start prediction stream.".data

/-- Modelled from the spec: the status-code-keyed generic message table
of the Request Executor contract, written from the words of the spec
(404, 408, 413, 422, any status at least 500, generic otherwise), for
comparison against the normalizer of the source. -/
def specFallbackTable (status : Nat) : List Char :=
  if status = 404 then "Not found.".data
  else if status = 408 then "Request timed out. Please try again.".data
  else if status = 413 then "File is too large. Please upload a smaller file.".data
  else if status = 422 then "Invalid input. Please check the form and try again.".data
  else if 500 ≤ status then "Server error. Please try again later.".data
  else "Something went wrong. Please try again.".data

/-- The fields of a fetch RequestInit literal that the claims are about:
the streaming calls pass method, two headers and a body, and no abort
signal. -/
structure FetchInitModel where
  method : List Char
  contentType : List Char
  accept : List Char
  signal : Option Unit

/-- The RequestInit literal of the trainModelStream fetch (lines 83-90):
no signal property appears in it. -/
def trainStreamFetchInit : FetchInitModel :=
  { method := "POST".data
    contentType := "application/json".data
    accept := "text/event-stream".data
    signal := none }

/-- The RequestInit literal of the predictStream fetch (lines 229-236):
no signal property appears in it. -/
def predictStreamFetchInit : FetchInitModel :=
  { method := "POST".data
    contentType := "application/json".data
    accept := "text/event-stream".data
    signal := none }

/-- C1: a Stream Session settles exactly once.  First, the settlement
guard: on an already-settled core both safeResolve and safeReject are
no-ops, whatever terminal signal (resolution value or rejection reason)
they carry.  Second, at the session level: when the buffered input
settles the session, appending any further frames (progress, error or
otherwise) leaves the settled state untouched and the extra input
unread. -/
theorem spec_c1_settles_exactly_once :
    (∀ (core : SessCore) (v : Json) (r : Reason), core.settled = true →
      safeResolve core v = core ∧ safeReject core r = core) ∧
    (∀ (parse : List Char → Option Json) (cfg : SessionCfg) (core : SessCore)
      (buf extra : List Char), core.settled = false →
      (processBuffer parse cfg core buf).1.settled = true →
      processBuffer parse cfg core (buf ++ extra) =
        ((processBuffer parse cfg core buf).1,
         (processBuffer parse cfg core buf).2 ++ extra)) := by
  constructor
  · intro core v r hs
    constructor
    · unfold safeResolve
      rw [if_pos hs]
    · unfold safeReject
      rw [if_pos hs]
  · intro parse cfg core buf extra hcore hset
    exact (processBuffer_append parse cfg buf extra core hcore).1 hset

def c1Parse : List Char → Option Json :=
  fun s => if s = "ok".data then some (Json.num 1) else none

def c1Buf : List Char := ("event: complete\ndata: ok\n\n").data

def c1Extra : List Char := ("event: error\ndata: ok\n\n").data

def c1Core : SessCore :=
  { progress := [], settled := true, outcome := some (SettleOutcome.resolved Json.null) }

theorem spec_c1_witness :
    (safeResolve c1Core Json.null = c1Core ∧ safeReject c1Core (Reason.eof []) = c1Core) ∧
    processBuffer c1Parse trainCfg initCore (c1Buf ++ c1Extra) =
      ((processBuffer c1Parse trainCfg initCore c1Buf).1,
       (processBuffer c1Parse trainCfg initCore c1Buf).2 ++ c1Extra) :=
  ⟨spec_c1_settles_exactly_once.1 c1Core Json.null (Reason.eof []) rfl,
   spec_c1_settles_exactly_once.2 c1Parse trainCfg initCore c1Buf c1Extra rfl (by decide)⟩

/-- C4: a frame whose joined data text is non-empty but fails JSON
parsing settles the session as a Failure carrying the ProtocolError
rejection, whatever the frame kind is (the dispatch statement holds for
every raw frame, before its event kind is even inspected); and the pump
stops at such a frame: the already-buffered remainder after it is left
unprocessed and the progress trace is untouched. -/
theorem spec_c4_malformed_payload_fails :
    (∀ (parse : List Char → Option Json) (cfg : SessionCfg) (core : SessCore)
      (raw : List Char), dataStrOf raw ≠ [] → parse (dataStrOf raw) = none →
      dispatchFrame parse cfg core raw =
        safeReject core (Reason.parseError (dataStrOf raw))) ∧
    (∀ (parse : List Char → Option Json) (cfg : SessionCfg) (core : SessCore)
      (buf pre post : List Char), findDelim buf = some (pre, post) →
      jsTrim pre ≠ [] → dataStrOf (jsTrim pre) ≠ [] →
      parse (dataStrOf (jsTrim pre)) = none →
      processBuffer parse cfg core buf =
        (safeReject core (Reason.parseError (dataStrOf (jsTrim pre))), post)) := by
  have part1 : ∀ (parse : List Char → Option Json) (cfg : SessionCfg) (core : SessCore)
      (raw : List Char), dataStrOf raw ≠ [] → parse (dataStrOf raw) = none →
      dispatchFrame parse cfg core raw =
        safeReject core (Reason.parseError (dataStrOf raw)) := by
    intro parse cfg core raw hds hp
    unfold dispatchFrame
    rw [if_neg hds, hp]
  refine ⟨part1, ?_⟩
  intro parse cfg core buf pre post hfd htr hds hp
  rw [processBuffer_delim hfd, if_neg htr, part1 parse cfg core (jsTrim pre) hds hp]
  have hset : (safeReject core (Reason.parseError (dataStrOf (jsTrim pre)))).settled = true := by
    unfold safeReject
    by_cases hc : core.settled = true
    · rw [if_pos hc]
      exact hc
    · rw [if_neg hc]
  simp only [hset, if_true]

theorem spec_c4_witness :
    dispatchFrame (fun _ => none) trainCfg initCore ("data: bad".data) =
      safeReject initCore (Reason.parseError (dataStrOf ("data: bad".data))) ∧
    processBuffer (fun _ => none) trainCfg initCore ("data: bad\n\n".data) =
      (safeReject initCore (Reason.parseError (dataStrOf (jsTrim ("data: bad".data)))), []) :=
  ⟨spec_c4_malformed_payload_fails.1 (fun _ => none) trainCfg initCore
      ("data: bad".data) (by decide) rfl,
   spec_c4_malformed_payload_fails.2 (fun _ => none) trainCfg initCore
      ("data: bad\n\n".data) ("data: bad".data) [] (by decide) (by decide) (by decide) rfl⟩

/-- C8: a progress frame whose payload parses but lacks a numeric pct
field leaves the session state entirely unchanged: its dispatch is the
identity (no callback recorded, no settlement, no exception in the
model), and pumping a buffer that starts with such a frame equals pumping
the buffer with the frame already removed, so the decoder simply
advances past it and the session keeps streaming. -/
theorem spec_c8_progress_without_pct_ignored :
    ∀ (parse : List Char → Option Json) (cfg : SessionCfg) (core : SessCore)
      (buf pre post : List Char) (d : Json),
      core.settled = false →
      findDelim buf = some (pre, post) →
      jsTrim pre ≠ [] →
      frameEvent (jsTrim pre) = "progress".data →
      parse (dataStrOf (jsTrim pre)) = some d →
      isNumField d ("pct".data) = false →
      dispatchFrame parse cfg core (jsTrim pre) = core ∧
      processBuffer parse cfg core buf = processBuffer parse cfg core post := by
  intro parse cfg core buf pre post d hcore hfd htr hev hp hnum
  have hdisp : dispatchFrame parse cfg core (jsTrim pre) = core := by
    unfold dispatchFrame
    by_cases hds : dataStrOf (jsTrim pre) = []
    · rw [if_pos hds]
    · rw [if_neg hds, hp]
      dsimp only
      have h1 : ¬(frameEvent (jsTrim pre) = "progress".data ∧ jsTruthy d = true ∧
          isNumField d ("pct".data) = true) := by
        rintro ⟨-, -, h3⟩
        rw [hnum] at h3
        simp at h3
      have h2 : ¬(frameEvent (jsTrim pre) = "complete".data ∧ jsTruthy d = true) := by
        rintro ⟨hc, -⟩
        rw [hev] at hc
        exact absurd hc (by decide)
      have h3 : ¬(frameEvent (jsTrim pre) = "error".data ∧ jsTruthy d = true) := by
        rintro ⟨hc, -⟩
        rw [hev] at hc
        exact absurd hc (by decide)
      rw [if_neg h1, if_neg h2, if_neg h3]
  refine ⟨hdisp, ?_⟩
  rw [processBuffer_delim hfd, if_neg htr, hdisp]
  simp only [hcore, Bool.false_eq_true, if_false]

def c8Parse : List Char → Option Json :=
  fun s => if s = "x".data then some (Json.obj [("note".data, Json.num 1)]) else none

theorem spec_c8_witness :
    dispatchFrame c8Parse trainCfg initCore (jsTrim ("event: progress\ndata: x".data)) =
      initCore ∧
    processBuffer c8Parse trainCfg initCore ("event: progress\ndata: x\n\n".data) =
      processBuffer c8Parse trainCfg initCore [] :=
  spec_c8_progress_without_pct_ignored c8Parse trainCfg initCore
    ("event: progress\ndata: x\n\n".data) ("event: progress\ndata: x".data) []
    (Json.obj [("note".data, Json.num 1)])
    rfl (by decide) (by decide) (by decide) rfl rfl

/-- C10: a complete or error frame (indeed any frame) whose joined data
text is empty dispatches as the identity, because the null payload makes
every branch of the event chain fail, and the pump continues past it;
consequently a stream consisting of one data-less complete frame followed
by end-of-stream settles as the ended-unexpectedly Failure with an empty
progress trace, never as success. -/
theorem spec_c10_empty_payload_ignored :
    (∀ (parse : List Char → Option Json) (cfg : SessionCfg) (core : SessCore)
      (buf pre post : List Char),
      core.settled = false →
      findDelim buf = some (pre, post) →
      jsTrim pre ≠ [] →
      dataStrOf (jsTrim pre) = [] →
      dispatchFrame parse cfg core (jsTrim pre) = core ∧
      processBuffer parse cfg core buf = processBuffer parse cfg core post) ∧
    (∀ (parse : List Char → Option Json) (cfg : SessionCfg),
      (runStream parse cfg [("event: complete\n\n".data)]).outcome =
        some (SettleOutcome.rejected (Reason.eof cfg.eofMsg)) ∧
      (runStream parse cfg [("event: complete\n\n".data)]).progress = []) := by
  have part1 : ∀ (parse : List Char → Option Json) (cfg : SessionCfg) (core : SessCore)
      (buf pre post : List Char),
      core.settled = false →
      findDelim buf = some (pre, post) →
      jsTrim pre ≠ [] →
      dataStrOf (jsTrim pre) = [] →
      dispatchFrame parse cfg core (jsTrim pre) = core ∧
      processBuffer parse cfg core buf = processBuffer parse cfg core post := by
    intro parse cfg core buf pre post hcore hfd htr hds
    have hdisp : dispatchFrame parse cfg core (jsTrim pre) = core := by
      unfold dispatchFrame
      rw [if_pos hds]
    refine ⟨hdisp, ?_⟩
    rw [processBuffer_delim hfd, if_neg htr, hdisp]
    simp only [hcore, Bool.false_eq_true, if_false]
  refine ⟨part1, ?_⟩
  intro parse cfg
  have h1 : findDelim ("event: complete\n\n".data) =
      some ("event: complete".data, []) := by decide
  have htr : ¬jsTrim ("event: complete".data) = [] := by decide
  have hds : dataStrOf (jsTrim ("event: complete".data)) = [] := by decide
  have hpb : processBuffer parse cfg initCore ("event: complete\n\n".data) =
      (initCore, []) := by
    rw [processBuffer_delim h1, if_neg htr,
      (part1 parse cfg initCore ("event: complete\n\n".data)
        ("event: complete".data) [] rfl h1 htr hds).1]
    simp only [show initCore.settled = false from rfl, Bool.false_eq_true, if_false]
    exact processBuffer_no_delim (by decide)
  have hrc : runChunks parse cfg initCore [] [("event: complete\n\n".data)] =
      (initCore, []) := by
    simp only [runChunks, List.nil_append, hpb]
    simp [runChunks, show initCore.settled = false from rfl]
  unfold runStream
  rw [hrc]
  simp [initCore, safeReject]

theorem spec_c10_witness :
    dispatchFrame (fun _ => none) trainCfg initCore (jsTrim ("event: error".data)) =
      initCore ∧
    processBuffer (fun _ => none) trainCfg initCore ("event: error\n\n".data) =
      processBuffer (fun _ => none) trainCfg initCore [] :=
  spec_c10_empty_payload_ignored.1 (fun _ => none) trainCfg initCore
    ("event: error\n\n".data) ("event: error".data) []
    rfl (by decide) (by decide) (by decide)

/-- C3: end-of-stream while still streaming settles the session as the
ended-unexpectedly Failure (for the training and prediction sessions the
message is the respective prefix followed by the quoted phrase), and a
stream none of whose frames carries the complete event kind can never
resolve successfully, whatever payloads it carries: only an explicit
complete frame authorizes success. -/
theorem spec_c3_eof_never_succeeds :
    (∀ (parse : List Char → Option Json) (cfg : SessionCfg) (chunks : List (List Char)),
      (runChunks parse cfg initCore [] chunks).1.settled = false →
      (runStream parse cfg chunks).outcome =
        some (SettleOutcome.rejected (Reason.eof cfg.eofMsg)) ∧
      (runStream parse cfg chunks).settled = true) ∧
    (∀ (parse : List Char → Option Json) (cfg : SessionCfg) (chunks : List (List Char)),
      (∀ seg ∈ (extract (List.flatten chunks)).1,
        frameEvent (jsTrim seg) ≠ "complete".data) →
      ∀ v, (runStream parse cfg chunks).outcome ≠ some (SettleOutcome.resolved v)) ∧
    trainCfg.eofMsg = ("Training " ++ "stream ended unexpectedly.").data ∧
    predictCfg.eofMsg = ("Prediction " ++ "stream ended unexpectedly.").data := by
  refine ⟨?_, ?_, by decide, by decide⟩
  · intro parse cfg chunks hset
    unfold runStream
    simp only [hset, Bool.false_eq_true, if_false]
    unfold safeReject
    simp only [hset, Bool.false_eq_true, if_false]
    exact ⟨trivial, trivial⟩
  · intro parse cfg chunks hframes v
    have hjoin := runChunks_join parse cfg chunks initCore [] rfl rfl
    rw [List.nil_append] at hjoin
    have hnr0 : notResolved initCore := by
      intro v'
      simp [initCore]
    have hnr : notResolved (processBuffer parse cfg initCore (List.flatten chunks)).1 :=
      processBuffer_notResolved parse cfg _ initCore hframes hnr0
    have hnrr : notResolved (runChunks parse cfg initCore [] chunks).1 := by
      rw [hjoin]
      exact hnr
    unfold runStream
    by_cases hs : (runChunks parse cfg initCore [] chunks).1.settled = true
    · simp only [hs, if_true]
      exact hnrr v
    · have hs' : (runChunks parse cfg initCore [] chunks).1.settled = false := by
        simpa using hs
      simp only [hs', Bool.false_eq_true, if_false]
      exact safeReject_notResolved hnrr _ v

def c3Parse : List Char → Option Json :=
  fun s => if s = "p".data then some (Json.obj [("pct".data, Json.num 5)]) else none

def c3Chunks : List (List Char) := [("event: progress\ndata: p\n\n").data]

theorem spec_c3_witness :
    ((runStream c3Parse trainCfg c3Chunks).outcome =
        some (SettleOutcome.rejected (Reason.eof trainCfg.eofMsg)) ∧
      (runStream c3Parse trainCfg c3Chunks).settled = true) ∧
    (∀ v, (runStream c3Parse trainCfg c3Chunks).outcome ≠
      some (SettleOutcome.resolved v)) :=
  ⟨spec_c3_eof_never_succeeds.1 c3Parse trainCfg c3Chunks (by decide),
   spec_c3_eof_never_succeeds.2.1 c3Parse trainCfg c3Chunks (by decide)⟩

/-- C2: chunking invariance at the byte level.  For a byte stream whose
whole decode succeeds with no trailing bytes, any split into chunks
(splits inside a multi-byte UTF-8 sequence and inside the frame delimiter
included) makes the frame decoder emit the same frames, buffer and
pending state as the one-chunk delivery, and drives the session to the
same settlement and the same progress-callback trace. -/
theorem spec_c2_chunking_invariance :
    ∀ (parse : List Char → Option Json) (cfg : SessionCfg) (s : List Nat)
      (chunks : List (List Nat)) (txt : List Char),
      List.flatten chunks = s →
      decodeGreedy s = some (txt, []) →
      feedBytes [] [] chunks = feedBytes [] [] [s] ∧
      runStreamBytes parse cfg chunks = runStreamBytes parse cfg [s] := by
  intro parse cfg s chunks txt hjoin hvalid
  subst hjoin
  have hp0 : decodeGreedy ([] : List Nat) = some ([], []) := rfl
  have hb0 : findDelim ([] : List Char) = none := rfl
  have hdec : decodeGreedy (([] : List Nat) ++ List.flatten chunks) = some (txt, []) := by
    simpa using hvalid
  have hdec1 : decodeGreedy (([] : List Nat) ++
      List.flatten [List.flatten chunks]) = some (txt, []) := by
    simpa using hvalid
  constructor
  · rw [feedBytes_spec chunks [] [] txt [] hp0 hb0 hdec,
      feedBytes_spec [List.flatten chunks] [] [] txt [] hp0 hb0 hdec1]
  · obtain ⟨b2, p2, h2⟩ :=
      runBytes_spec parse cfg chunks [] [] initCore txt [] hp0 hb0 rfl hdec
    obtain ⟨b3, p3, h3⟩ :=
      runBytes_spec parse cfg [List.flatten chunks] [] [] initCore txt [] hp0 hb0 rfl hdec1
    unfold runStreamBytes
    rw [h2, h3]

theorem spec_c2_witness :
    feedBytes [] [] [[100, 97, 116, 97, 58, 32, 195], [169, 10], [10]] =
      feedBytes [] [] [[100, 97, 116, 97, 58, 32, 195, 169, 10, 10]] ∧
    runStreamBytes (fun _ => none) trainCfg
        [[100, 97, 116, 97, 58, 32, 195], [169, 10], [10]] =
      runStreamBytes (fun _ => none) trainCfg
        [[100, 97, 116, 97, 58, 32, 195, 169, 10, 10]] :=
  spec_c2_chunking_invariance (fun _ => none) trainCfg
    [100, 97, 116, 97, 58, 32, 195, 169, 10, 10]
    [[100, 97, 116, 97, 58, 32, 195], [169, 10], [10]]
    ("data: ".data ++ [Char.ofNat 233, '\n', '\n'])
    (by decide) (by decide)

def c5Body : List Char :=
  "\x7b\"message\":\"bad file\",\"code\":\"E1\",\"trace_id\":\"t1\"\x7d".data

def c5Parse : List Char → Option Json := fun s =>
  if s = c5Body then
    some (Json.obj [("message".data, Json.str ("bad file".data)),
      ("code".data, Json.str ("E1".data)),
      ("trace_id".data, Json.str ("t1".data))])
  else none

/-- C5 counterexample: on the structured 422 error body of the spec
scenario, the Request Executor normalization yields exactly the message
field (bad file), but the stream-init failure path throws the raw body
text itself, so the two paths do not share the normalization the claim
asserts. -/
theorem spec_c5_counterexample :
    trainStreamInitMessage c5Body ≠ requestErrorMessage c5Parse true c5Body 422 ∧
    requestErrorMessage c5Parse true c5Body 422 = "bad file".data ∧
    trainStreamInitMessage c5Body = c5Body := by
  refine ⟨?_, rfl, rfl⟩
  intro h
  rw [show trainStreamInitMessage c5Body = c5Body from rfl,
    show requestErrorMessage c5Parse true c5Body 422 = "bad file".data from rfl] at h
  exact absurd h (by decide)

/-- C5 amended: when a streaming call's initial response has a
non-success status or no readable body, the session settles immediately
as Failure whose message is the raw response body text when non-empty
(empty when reading the body itself failed), and otherwise the fixed
message of the respective operation; the structured-error parsing and the
status-keyed table of the Request Executor are not applied on this
path. -/
theorem spec_c5_init_failure_message :
    ∀ (txt : List Char),
      (txt ≠ [] → trainStreamInitMessage txt = txt ∧
        predictStreamInitMessage txt = txt) ∧
      (txt = [] → trainStreamInitMessage txt = "Failed to start training stream.".data ∧
        predictStreamInitMessage txt = "Failed to start prediction stream.".data) := by
  intro txt
  constructor
  · intro h
    unfold trainStreamInitMessage predictStreamInitMessage
    rw [if_pos h, if_pos h]
    exact ⟨rfl, rfl⟩
  · intro h
    subst h
    exact ⟨rfl, rfl⟩

theorem spec_c5_witness :
    (trainStreamInitMessage ("x".data) = "x".data ∧
      predictStreamInitMessage ("x".data) = "x".data) ∧
    (trainStreamInitMessage [] = "Failed to start training stream.".data ∧
      predictStreamInitMessage [] = "Failed to start prediction stream.".data) :=
  ⟨(spec_c5_init_failure_message ("x".data)).1 (by decide),
   (spec_c5_init_failure_message []).2 rfl⟩

/-- Equality of the fallback block of the source normalizer with the
spec-described status table, for every status. -/
theorem statusFallback_eq_spec (s : Nat) : statusFallback (some s) = specFallbackTable s := by
  unfold statusFallback specFallbackTable
  by_cases h1 : s = 404
  · simp [h1]
  · by_cases h2 : s = 408
    · simp [h1, h2]
    · by_cases h3 : s = 413
      · simp [h1, h2, h3]
      · by_cases h4 : s = 422
        · simp [h1, h2, h3, h4]
        · by_cases h5 : 500 ≤ s
          · have h0 : s ≠ 0 := by omega
            simp [h1, h2, h3, h4, h5, h0]
          · have h6 : ¬(s ≠ 0 ∧ 500 ≤ s) := fun hc => h5 hc.2
            simp [h1, h2, h3, h4, h5, h6]

def c6Body : List Char :=
  "\x7b\"message\":\"\",\"code\":\"E1\",\"trace_id\":\"t1\"\x7d".data

def c6Payload : Json :=
  Json.obj [("message".data, Json.str []),
    ("code".data, Json.str ("E1".data)),
    ("trace_id".data, Json.str ("t1".data))]

def c6Parse : List Char → Option Json := fun s =>
  if s = c6Body then some c6Payload else none

/-- C6 counterexample: a body that parses as the structured error shape
with string message, code and trace_id fields, whose message is the empty
string, does not yield the body's message: the empty string is falsy, so
the normalizer falls through to the 404 table entry instead of returning
the empty message exactly. -/
theorem spec_c6_counterexample :
    tryParseApiError (some c6Payload) =
      some { message := [], code := "E1".data, trace_id := "t1".data, details := none } ∧
    requestErrorMessage c6Parse true c6Body 404 = "Not found.".data ∧
    "Not found.".data ≠ ([] : List Char) := ⟨rfl, rfl, by decide⟩

/-- C6 amended, over every non-success Request Executor response,
whatever its content type: when the response declares a JSON content
type and the body parses as the structured error shape with a non-empty
string message, the error message is exactly that field; otherwise —
a non-JSON content type (the body is kept as text, which never passes
the structured-shape check), a parse failure, missing or non-string
fields, or an empty structured message — the message is the status-keyed
fallback table entry (404, 408, 413, 422, any status at least 500,
generic otherwise), which coincides with the table described by the
spec. -/
theorem spec_c6_request_error_message :
    ∀ (parse : List Char → Option Json) (isJson : Bool) (txt : List Char) (status : Nat),
      (∀ j e, isJson = true → parse txt = some j → tryParseApiError (some j) = some e →
        e.message ≠ [] → requestErrorMessage parse isJson txt status = e.message) ∧
      ((isJson = false ∨
        (match parse txt with
        | none => True
        | some j => tryParseApiError (some j) = none ∨
            ∃ e, tryParseApiError (some j) = some e ∧ e.message = [])) →
        requestErrorMessage parse isJson txt status = specFallbackTable status) ∧
      (tryParseApiError (some (Json.str txt)) = none ∧
        requestErrorMessage parse false txt status = specFallbackTable status) ∧
      (∀ s : Nat, statusFallback (some s) = specFallbackTable s) := by
  intro parse isJson txt status
  have htext : tryParseApiError (some (Json.str txt)) = none := by
    unfold tryParseApiError
    simp [isObjectLike]
  have hfalse : requestErrorMessage parse false txt status = specFallbackTable status := by
    unfold requestErrorMessage
    simp only [Bool.false_eq_true, if_false]
    rw [htext]
    unfold toUserErrorMessage
    exact statusFallback_eq_spec status
  have hjson : (match parse txt with
      | none => True
      | some j => tryParseApiError (some j) = none ∨
          ∃ e, tryParseApiError (some j) = some e ∧ e.message = []) →
      requestErrorMessage parse true txt status = specFallbackTable status := by
    intro hfb
    unfold requestErrorMessage
    cases hp : parse txt with
    | none =>
      simp only [hp, if_true]
      unfold tryParseApiError toUserErrorMessage
      exact statusFallback_eq_spec status
    | some j =>
      rw [hp] at hfb
      simp only [hp, if_true]
      rcases hfb with hnone | ⟨e, hap, hm⟩
      · rw [hnone]
        unfold toUserErrorMessage
        exact statusFallback_eq_spec status
      · rw [hap]
        unfold toUserErrorMessage
        dsimp only
        rw [if_neg (show ¬e.message ≠ [] from fun hc => hc hm)]
        exact statusFallback_eq_spec status
  refine ⟨?_, ?_, ⟨htext, hfalse⟩, fun s => statusFallback_eq_spec s⟩
  · intro j e hij hp hap hm
    subst hij
    unfold requestErrorMessage
    simp only [hp, if_true]
    rw [hap]
    unfold toUserErrorMessage
    dsimp only
    rw [if_pos hm]
  · intro hfb
    rcases hfb with hij | hmatch
    · subst hij
      exact hfalse
    · cases hij : isJson with
      | false =>
        exact hfalse
      | true =>
        exact hjson hmatch

def c6wParse : List Char → Option Json := fun s =>
  if s = "b".data then
    some (Json.obj [("message".data, Json.str ("m".data)),
      ("code".data, Json.str ("c".data)),
      ("trace_id".data, Json.str ("t".data))])
  else none

theorem spec_c6_witness :
    requestErrorMessage c6wParse true ("b".data) 422 = "m".data ∧
    requestErrorMessage (fun _ => none) true ("z".data) 500 = specFallbackTable 500 ∧
    requestErrorMessage (fun _ => none) false ("plain error text".data) 404 =
      specFallbackTable 404 :=
  ⟨(spec_c6_request_error_message c6wParse true ("b".data) 422).1
      (Json.obj [("message".data, Json.str ("m".data)),
        ("code".data, Json.str ("c".data)),
        ("trace_id".data, Json.str ("t".data))])
      { message := "m".data, code := "c".data, trace_id := "t".data, details := none }
      rfl rfl rfl (by decide),
   (spec_c6_request_error_message (fun _ => none) true ("z".data) 500).2.1
      (Or.inr trivial),
   (spec_c6_request_error_message (fun _ => none) false ("plain error text".data) 404).2.1
      (Or.inl rfl)⟩

/-- A line carrying the event prefix cannot also carry the data
prefix. -/
theorem event_prefix_not_data {l : List Char}
    (h : hasPrefixCh ("event:".data) l = true) :
    hasPrefixCh ("data:".data) l = false := by
  cases l with
  | nil => exact absurd h (by decide)
  | cons c ls =>
    have hstep : hasPrefixCh ("event:".data) (c :: ls) =
        (decide ('e' = c) && hasPrefixCh ("vent:".data) ls) := rfl
    rw [hstep, Bool.and_eq_true] at h
    have hc : c = 'e' := (of_decide_eq_true h.1).symm
    subst hc
    have hstep2 : hasPrefixCh ("data:".data) ('e' :: ls) =
        (decide ('d' = 'e') && hasPrefixCh ("ata:".data) ls) := rfl
    rw [hstep2]
    simp

/-- The data-line accumulator of the per-line loop in closed form. -/
theorem frameLines_fold : ∀ (lines : List (List Char)) (ev : List Char)
    (ds : List (List Char)),
    (lines.foldl frameLineStep (ev, ds)).2 =
      ds ++ (lines.filter (fun l => hasPrefixCh ("data:".data) l)).map
        (fun l => jsTrim (l.drop 5)) := by
  intro lines
  induction lines with
  | nil =>
    intro ev ds
    simp
  | cons l ls ih =>
    intro ev ds
    simp only [List.foldl_cons, List.filter_cons]
    by_cases he : hasPrefixCh ("event:".data) l = true
    · have hd : hasPrefixCh ("data:".data) l = false := event_prefix_not_data he
      have hstep : frameLineStep (ev, ds) l = (jsTrim (l.drop 6), ds) := by
        unfold frameLineStep
        rw [if_pos he]
      rw [hstep]
      simp only [hd, Bool.false_eq_true, if_false]
      exact ih _ ds
    · by_cases hd : hasPrefixCh ("data:".data) l = true
      · have hstep : frameLineStep (ev, ds) l = (ev, ds ++ [jsTrim (l.drop 5)]) := by
          unfold frameLineStep
          rw [if_neg he, if_pos hd]
        rw [hstep]
        simp only [hd, if_true]
        rw [ih ev (ds ++ [jsTrim (l.drop 5)])]
        simp
      · have hstep : frameLineStep (ev, ds) l = (ev, ds) := by
          unfold frameLineStep
          rw [if_neg he, if_neg hd]
        rw [hstep]
        simp only [hd, Bool.false_eq_true, if_false]
        exact ih ev ds

/-- C7 counterexample: for the frame whose single line is the data
prefix followed by two spaces and a letter, the joined data text is the
trimmed letter, not the unaltered content after the prefix, which still
carries the two spaces. -/
theorem spec_c7_counterexample :
    dataStrOf ("data:  a".data) ≠ ("data:  a".data).drop 5 ∧
    dataStrOf ("data:  a".data) = "a".data ∧
    ("data:  a".data).drop 5 = "  a".data := by
  refine ⟨?_, by decide, by decide⟩
  intro h
  rw [show dataStrOf ("data:  a".data) = "a".data from by decide,
    show ("data:  a".data).drop 5 = "  a".data from by decide] at h
  exact absurd h (by decide)

/-- C7 amended: within a frame, exactly the lines carrying the data
prefix contribute, in line order; each contribution is the content after
the five-character prefix with surrounding whitespace trimmed, and the
contributions are joined with the newline character to form the text
handed to JSON parsing. -/
theorem spec_c7_data_lines_joined :
    ∀ (raw : List Char),
      (parseFrameLines raw).2 =
        ((splitLines raw).filter (fun l => hasPrefixCh ("data:".data) l)).map
          (fun l => jsTrim (l.drop 5)) ∧
      dataStrOf raw = List.intercalate ['\n']
        (((splitLines raw).filter (fun l => hasPrefixCh ("data:".data) l)).map
          (fun l => jsTrim (l.drop 5))) := by
  intro raw
  have h1 : (parseFrameLines raw).2 =
      ((splitLines raw).filter (fun l => hasPrefixCh ("data:".data) l)).map
        (fun l => jsTrim (l.drop 5)) := by
    unfold parseFrameLines
    rw [frameLines_fold (splitLines raw) ("message".data) []]
    simp
  refine ⟨h1, ?_⟩
  unfold dataStrOf
  rw [h1]

/-- C9: the stream sessions expose no cancellation: the RequestInit
literals of the streaming fetches carry no abort signal, so once issued
a stream session cannot be cancelled by the caller. -/
theorem spec_c9_no_stream_abort_signal :
    trainStreamFetchInit.signal = none ∧ predictStreamFetchInit.signal = none :=
  ⟨rfl, rfl⟩

end ChurnStream
